import Mathlib

/-!
Verification of `flowkit/config/deployment.go`.

A shallow embedding of the deployment records of the Flow CLI configuration
(`ContractDeployment`, `Deployment`, `Deployments`) and of their methods, with
theorems about what the methods do.

Modelling choices.

* Go strings are `String`. The argument type `cadence.Value` comes from another
  module and is never inspected here: it is the type parameter `V`.
* A Go slice is read as the list of its elements wherever the code only reads
  it or appends to it (a `nil` slice and an empty slice are both `[]`).
* The two methods that delete while ranging (`Deployment.RemoveContract`,
  `Deployments.Remove`) are run on an explicit slice value `Slice`: a backing
  array together with a length, because the `range` statement keeps reading the
  backing array that `slices.Delete` shifts in place.
* A Go run-time panic is the result `none`.
-/

namespace Config

/-! ## Data model -/

/-- ContractDeployment defines the deployment of the contract with possible args. -/
structure ContractDeployment (V : Type) where
  Name : String
  Args : List V
deriving DecidableEq, Repr

/-- Deployment defines the configuration for a contract deployment. -/
structure Deployment (V : Type) where
  Network : String
  Account : String
  Contracts : List (ContractDeployment V)
deriving DecidableEq, Repr

/-- The collection type `type Deployments []Deployment`. -/
abbrev Deployments (V : Type) := List (Deployment V)

/-- Go zero value of `ContractDeployment`: empty name, nil args. -/
def ContractDeployment.zero (V : Type) : ContractDeployment V := ⟨"", []⟩

/-- Go zero value of `Deployment`: empty strings, nil contracts. -/
def Deployment.zero (V : Type) : Deployment V := ⟨"", "", []⟩

/-! ## Go slices and `slices.Delete` -/

/-- A Go slice value: the cells of its backing array from the slice's first
element up to its capacity (`arr`, so `cap = arr.length`), and its length. -/
structure Slice (α : Type) where
  arr : List α
  len : Nat
deriving DecidableEq, Repr

/-- The slice whose elements are `l`, with no spare capacity. The deleting loops
below never touch a cell at or beyond the original length, so spare capacity
would not change what they do. -/
def Slice.ofList {α : Type} (l : List α) : Slice α := ⟨l, l.length⟩

/-- The elements of a slice: the first `len` cells of the backing array. -/
def Slice.toList {α : Type} (s : Slice α) : List α := s.arr.take s.len

/-- The Go expression `append(s[:i], s[j:]...)` for `i ≤ j ≤ len(s)`: the elements
`s[j:len]` are copied (as by memmove) to the cells starting at `i` of the same
backing array, which always has room for them; the other cells keep their
content and the length becomes `i + (len - j)`. -/
def Slice.appendTail {α : Type} (s : Slice α) (i j : Nat) : Slice α :=
  let src := (s.arr.take s.len).drop j
  ⟨s.arr.take i ++ src ++ s.arr.drop (i + src.length), i + src.length⟩

/-- The Go statement `clear(s[lo:hi])`: the cells `lo .. hi-1` become the zero value. -/
def Slice.clear {α : Type} (zero : α) (s : Slice α) (lo hi : Nat) : Slice α :=
  ⟨s.arr.take lo ++ List.replicate (hi - lo) zero ++ s.arr.drop hi, s.len⟩

/-- The library function `golang.org/x/exp/slices.Delete(s, i, j)`, which is not
part of this repository. Two bodies of it have been published and the flag
`clearTail` selects one:

* `clearTail = false` (the library as it was when the file was written):
  `_ = s[i:j]; return append(s[:i], s[j:]...)`. The first slicing is checked
  against the capacity, `s[j:]` against the length.
* `clearTail = true` (later revisions):
  `_ = s[i:j:len(s)]; if i == j { return s }; oldlen := len(s);`
  `s = append(s[:i], s[j:]...); clear(s[len(s):oldlen]); return s`.

A failed bounds check is a panic: `none`. -/
def slicesDelete {α : Type} (clearTail : Bool) (zero : α) (s : Slice α) (i j : Nat) :
    Option (Slice α) :=
  if clearTail then
    if i ≤ j ∧ j ≤ s.len then
      if i = j then some s
      else
        let oldlen := s.len
        let s1 := s.appendTail i j
        some (s1.clear zero s1.len oldlen)
    else none
  else
    if i ≤ j ∧ j ≤ s.arr.length then
      if j ≤ s.len then some (s.appendTail i j) else none
    else none

/-- The loop shared by `RemoveContract` and `Remove`:

    for i, x := range s { if p x { s = slices.Delete(s, i, i+1) } }

The range expression is evaluated once, so the loop runs over the indices below
the original length (`fuel` counts the iterations left, `i` is the index) and
reads `x` from cell `i` of the backing array, which the deletions have shifted
in the meantime; `s` is the slice variable that the loop body reassigns. -/
def rangeDelete {α : Type} (clearTail : Bool) (zero : α) (p : α → Prop) [DecidablePred p] :
    Nat → Nat → Slice α → Option (Slice α)
  | 0, _, s => some s
  | fuel + 1, i, s =>
    match s.arr[i]? with
    | none => none
    | some x =>
      if p x then
        (slicesDelete clearTail zero s i (i + 1)).bind
          (rangeDelete clearTail zero p fuel (i + 1))
      else rangeDelete clearTail zero p fuel (i + 1) s

/-! ## Deployment -/

/-- The loop of `AddContract` over the entries still to visit: return on the
first entry with the same name, append after the last one. -/
def AddContract.loop {V : Type} (d : Deployment V) (contract : ContractDeployment V) :
    List (ContractDeployment V) → Deployment V
  | [] => { d with Contracts := d.Contracts ++ [contract] }
  | c :: rest => if contract.Name = c.Name then d else AddContract.loop d contract rest

/-- AddContract to deployment list on the account name and network name. -/
def AddContract {V : Type} (d : Deployment V) (contract : ContractDeployment V) : Deployment V :=
  AddContract.loop d contract d.Contracts

/-- RemoveContract removes a specific contract by name from an existing
deployment. The result is the deployment after the call, `none` if the call panics. -/
def RemoveContract {V : Type} (clearTail : Bool) (d : Deployment V) (contractName : String) :
    Option (Deployment V) :=
  (rangeDelete clearTail (ContractDeployment.zero V) (fun contract => contract.Name = contractName)
      d.Contracts.length 0 (Slice.ofList d.Contracts)).map
    (fun s => { d with Contracts := s.toList })

/-! ## Deployments -/

/-- The loop of `ByNetwork`: `deployments` is the result built so far. -/
def ByNetwork.loop {V : Type} (network : String) :
    Deployments V → List (Deployment V) → Deployments V
  | deployments, [] => deployments
  | deployments, deploy :: rest =>
    if deploy.Network = network then ByNetwork.loop network (deployments ++ [deploy]) rest
    else ByNetwork.loop network deployments rest

/-- ByNetwork get all deployments by network. The method only reads its
receiver, so the result is the only output. -/
def ByNetwork {V : Type} (d : Deployments V) (network : String) : Deployments V :=
  ByNetwork.loop network [] d

/-- The loop of `ByAccountAndNetwork` from index `i` on. -/
def ByAccountAndNetwork.loop {V : Type} (account network : String) :
    Nat → List (Deployment V) → Option Nat
  | _, [] => none
  | i, deploy :: rest =>
    if deploy.Network = network ∧ deploy.Account = account then some i
    else ByAccountAndNetwork.loop account network (i + 1) rest

/-- ByAccountAndNetwork get deploy by account and network. The Go result is the
pointer `&(*d)[i]` or nil; the pointer is given by its index `i`. -/
def ByAccountAndNetwork {V : Type} (d : Deployments V) (account network : String) : Option Nat :=
  ByAccountAndNetwork.loop account network 0 d

/-- The loop of `AddOrUpdate` from index `i` on; `d` is the whole collection. -/
def AddOrUpdate.loop {V : Type} (d : Deployments V) (deployment : Deployment V) :
    Nat → List (Deployment V) → Deployments V
  | _, [] => d ++ [deployment]
  | i, existingDeployment :: rest =>
    if existingDeployment.Account = deployment.Account ∧
        existingDeployment.Network = deployment.Network then d.set i deployment
    else AddOrUpdate.loop d deployment (i + 1) rest

/-- AddOrUpdate add new or update if already present. -/
def AddOrUpdate {V : Type} (d : Deployments V) (deployment : Deployment V) : Deployments V :=
  AddOrUpdate.loop d deployment 0 d

/-- The message built by `fmt.Errorf` in `Remove`. -/
def removeError (account network : String) : String :=
  "deployment for account " ++ account ++ " on network " ++ network ++
    " does not exist in configuration"

/-- The outcome of a call of `Remove` that returns: the returned error (`none`
for nil) and the collection after the call. -/
structure RemoveResult (V : Type) where
  err : Option String
  d : Deployments V
deriving DecidableEq, Repr

/-- Remove removes deployment by account and network. The result is `none` if
the call panics. -/
def Remove {V : Type} (clearTail : Bool) (d : Deployments V) (account network : String) :
    Option (RemoveResult V) :=
  match ByAccountAndNetwork d account network with
  | none => some ⟨some (removeError account network), d⟩
  | some _ =>
    (rangeDelete clearTail (Deployment.zero V)
        (fun deployment => deployment.Network = network ∧ deployment.Account = account)
        d.length 0 (Slice.ofList d)).map
      (fun s => ⟨none, s.toList⟩)

/-! ## Definitions used in the statements and proofs -/

/-- What cell `len - 1` of the backing array holds after `slices.Delete` has
removed `x` from `mid ++ x :: post`: the zero value if the library clears the
vacated cell, else the cell's old content, the last element of `x :: post`. -/
def tailCell {α : Type} (clearTail : Bool) (zero x : α) (post : List α) : α :=
  if clearTail then zero else post.getLastD x

/-- A collection with one record per (account, network) pair. -/
def sampleDeployments : Deployments Nat :=
  [⟨"emulator", "alice", [⟨"Token", [1]⟩]⟩,
   ⟨"testnet", "alice", [⟨"Token", [1, 2]⟩]⟩,
   ⟨"testnet", "bob", []⟩]

/-- A record for a pair that `sampleDeployments` holds, with other contracts. -/
def sampleUpdate : Deployment Nat := ⟨"testnet", "alice", [⟨"NFT", []⟩]⟩

/-- A record for a pair that `sampleDeployments` does not hold. -/
def sampleNew : Deployment Nat := ⟨"mainnet", "alice", [⟨"NFT", [7]⟩]⟩

/-- A collection built directly, with two adjacent records for alice on testnet. -/
def adjacentDeployments : Deployments Nat :=
  [⟨"testnet", "alice", []⟩,
   ⟨"testnet", "alice", [⟨"Token", []⟩]⟩,
   ⟨"testnet", "bob", []⟩]

/-- A collection built directly, with two records for alice on testnet around
one for bob. -/
def separatedDeployments : Deployments Nat :=
  [⟨"testnet", "alice", []⟩,
   ⟨"testnet", "bob", []⟩,
   ⟨"testnet", "alice", [⟨"Token", []⟩]⟩]

/-- A deployment built directly, with two adjacent contracts named Token. -/
def adjacentContracts : Deployment Nat :=
  ⟨"testnet", "alice", [⟨"Token", [1]⟩, ⟨"Token", [2]⟩, ⟨"NFT", []⟩]⟩

/-- A deployment built directly, with two contracts named Token around another. -/
def separatedContracts : Deployment Nat :=
  ⟨"testnet", "alice", [⟨"Token", [1]⟩, ⟨"NFT", []⟩, ⟨"Token", [2]⟩]⟩

/-- The Go call `d.ByAccountAndNetwork(account, network).AddContract(contract)`:
the method runs on the record that the returned pointer designates, which is
the record stored in the collection. On a nil pointer the call panics. -/
def addContractAt {V : Type} (d : Deployments V) (account network : String)
    (contract : ContractDeployment V) : Option (Deployments V) :=
  match ByAccountAndNetwork d account network with
  | none => none
  | some i =>
    match d[i]? with
    | none => none
    | some r => some (d.set i (AddContract r contract))

/-- No two records of the collection have both the same account and the same
network. -/
def UniquePairs {V : Type} (ds : Deployments V) : Prop :=
  ds.Pairwise (fun a b => ¬ (a.Account = b.Account ∧ a.Network = b.Network))

/-- No two entries of the contract list have the same name. -/
def UniqueNames {V : Type} (cs : List (ContractDeployment V)) : Prop :=
  cs.Pairwise (fun a b => ¬ a.Name = b.Name)

/-- A call of one of the two mutating methods of `Deployments`. -/
inductive DeploymentsCall (V : Type) where
  | addOrUpdate (deployment : Deployment V)
  | remove (account network : String)

/-- The collection after one call, `none` if the call panics. A call of `Remove`
that returns an error has returned: the collection it leaves is the result. -/
def DeploymentsCall.run {V : Type} (clearTail : Bool) (d : Deployments V) :
    DeploymentsCall V → Option (Deployments V)
  | .addOrUpdate deployment => some (AddOrUpdate d deployment)
  | .remove account network => (Remove clearTail d account network).map (fun r => r.d)

/-- The collection after a sequence of calls, `none` if one of them panics. -/
def runDeploymentsCalls {V : Type} (clearTail : Bool) :
    Deployments V → List (DeploymentsCall V) → Option (Deployments V)
  | d, [] => some d
  | d, call :: calls =>
    (call.run clearTail d).bind (fun d' => runDeploymentsCalls clearTail d' calls)

/-- A call of one of the two mutating methods of `Deployment`. -/
inductive ContractCall (V : Type) where
  | addContract (contract : ContractDeployment V)
  | removeContract (contractName : String)

/-- The deployment after one call, `none` if the call panics. -/
def ContractCall.run {V : Type} (clearTail : Bool) (d : Deployment V) :
    ContractCall V → Option (Deployment V)
  | .addContract contract => some (AddContract d contract)
  | .removeContract contractName => RemoveContract clearTail d contractName

/-- The deployment after a sequence of calls, `none` if one of them panics. -/
def runContractCalls {V : Type} (clearTail : Bool) :
    Deployment V → List (ContractCall V) → Option (Deployment V)
  | d, [] => some d
  | d, call :: calls =>
    (call.run clearTail d).bind (fun d' => runContractCalls clearTail d' calls)

/-- A deployment built directly, with two contracts of empty name around another. -/
def emptyNameContracts : Deployment Nat :=
  ⟨"testnet", "alice", [⟨"", [1]⟩, ⟨"NFT", []⟩, ⟨"", [2]⟩]⟩

/-- A collection built directly, with two records of empty account and network
around one for bob. -/
def emptyPairDeployments : Deployments Nat :=
  [⟨"", "", []⟩, ⟨"testnet", "bob", []⟩, ⟨"", "", [⟨"Token", []⟩]⟩]

/-- A deployment with pairwise distinct contract names. -/
def sampleContracts : Deployment Nat :=
  ⟨"testnet", "alice", [⟨"Token", [1]⟩, ⟨"NFT", []⟩, ⟨"Vault", [2, 3]⟩]⟩

/-! ## Auxiliary facts on lists -/

/-- A list either has no element satisfying `p`, or splits at its first such element. -/
theorem first_split {α : Type} (p : α → Prop) [DecidablePred p] (l : List α) :
    (∀ r ∈ l, ¬ p r) ∨
      ∃ mid x post, l = mid ++ x :: post ∧ p x ∧ ∀ r ∈ mid, ¬ p r := by
  induction l with
  | nil => left; simp
  | cons a t ih =>
    by_cases ha : p a
    · right; exact ⟨[], a, t, rfl, ha, by simp⟩
    · rcases ih with h | ⟨mid, x, post, rfl, hx, hmid⟩
      · left
        intro r hr
        rcases List.mem_cons.mp hr with rfl | hr
        · exact ha
        · exact h r hr
      · right
        refine ⟨a :: mid, x, post, rfl, hx, ?_⟩
        intro r hr
        rcases List.mem_cons.mp hr with rfl | hr
        · exact ha
        · exact hmid r hr

/-- A list with an element satisfying `p` splits at its first such element. -/
theorem first_split_of_exists {α : Type} (p : α → Prop) [DecidablePred p] (l : List α)
    (h : ∃ r ∈ l, p r) :
    ∃ mid x post, l = mid ++ x :: post ∧ p x ∧ ∀ r ∈ mid, ¬ p r := by
  rcases first_split p l with hno | hsplit
  · obtain ⟨r, hr, hp⟩ := h
    exact absurd hp (hno r hr)
  · exact hsplit

/-- The element at which a list is split sits at the index `mid.length`. -/
theorem getElem?_split {α : Type} (mid post : List α) (x : α) :
    (mid ++ x :: post)[mid.length]? = some x := by
  rw [List.getElem?_append_right (le_refl _)]
  simp

/-! ## The loops without deletion -/

theorem AddOrUpdate_loop_none {V : Type} (d : Deployments V) (dep : Deployment V)
    (rest : List (Deployment V)) (i : Nat)
    (h : ∀ r ∈ rest, ¬ (r.Account = dep.Account ∧ r.Network = dep.Network)) :
    AddOrUpdate.loop d dep i rest = d ++ [dep] := by
  induction rest generalizing i with
  | nil => rfl
  | cons a t ih =>
    have ha := h a (List.mem_cons_self a t)
    simp only [AddOrUpdate.loop, if_neg ha]
    exact ih (i + 1) (fun r hr => h r (List.mem_cons_of_mem a hr))

theorem AddOrUpdate_loop_first {V : Type} (d : Deployments V) (dep : Deployment V)
    (mid : List (Deployment V)) (x : Deployment V) (post : List (Deployment V)) (i : Nat)
    (hx : x.Account = dep.Account ∧ x.Network = dep.Network)
    (h : ∀ r ∈ mid, ¬ (r.Account = dep.Account ∧ r.Network = dep.Network)) :
    AddOrUpdate.loop d dep i (mid ++ x :: post) = d.set (i + mid.length) dep := by
  induction mid generalizing i with
  | nil => simp [AddOrUpdate.loop, hx]
  | cons a t ih =>
    have ha := h a (List.mem_cons_self a t)
    rw [List.cons_append, AddOrUpdate.loop, if_neg ha,
      ih (i + 1) (fun r hr => h r (List.mem_cons_of_mem a hr))]
    congr 1
    simp only [List.length_cons]
    omega

theorem ByAccountAndNetwork_loop_none {V : Type} (account network : String)
    (rest : List (Deployment V)) (i : Nat)
    (h : ∀ r ∈ rest, ¬ (r.Network = network ∧ r.Account = account)) :
    ByAccountAndNetwork.loop account network i rest = none := by
  induction rest generalizing i with
  | nil => rfl
  | cons a t ih =>
    have ha := h a (List.mem_cons_self a t)
    simp only [ByAccountAndNetwork.loop, if_neg ha]
    exact ih (i + 1) (fun r hr => h r (List.mem_cons_of_mem a hr))

theorem ByAccountAndNetwork_loop_first {V : Type} (account network : String)
    (mid : List (Deployment V)) (x : Deployment V) (post : List (Deployment V)) (i : Nat)
    (hx : x.Network = network ∧ x.Account = account)
    (h : ∀ r ∈ mid, ¬ (r.Network = network ∧ r.Account = account)) :
    ByAccountAndNetwork.loop account network i (mid ++ x :: post) = some (i + mid.length) := by
  induction mid generalizing i with
  | nil => simp [ByAccountAndNetwork.loop, hx]
  | cons a t ih =>
    have ha := h a (List.mem_cons_self a t)
    rw [List.cons_append, ByAccountAndNetwork.loop, if_neg ha,
      ih (i + 1) (fun r hr => h r (List.mem_cons_of_mem a hr))]
    simp only [List.length_cons]
    congr 1
    omega

theorem ByNetwork_loop_eq {V : Type} (network : String) (acc rest : Deployments V) :
    ByNetwork.loop network acc rest = acc ++ rest.filter (fun r => r.Network = network) := by
  induction rest generalizing acc with
  | nil => simp [ByNetwork.loop]
  | cons a t ih =>
    by_cases ha : a.Network = network
    · simp [ByNetwork.loop, ha, ih]
    · simp [ByNetwork.loop, ha, ih]

theorem AddContract_loop_absent {V : Type} (d : Deployment V) (c : ContractDeployment V)
    (rest : List (ContractDeployment V)) (h : ∀ e ∈ rest, ¬ e.Name = c.Name) :
    AddContract.loop d c rest = { d with Contracts := d.Contracts ++ [c] } := by
  induction rest with
  | nil => rfl
  | cons a t ih =>
    have ha : ¬ c.Name = a.Name := fun e => h a (List.mem_cons_self a t) e.symm
    simp only [AddContract.loop, if_neg ha]
    exact ih (fun r hr => h r (List.mem_cons_of_mem a hr))

theorem AddContract_loop_present {V : Type} (d : Deployment V) (c : ContractDeployment V)
    (rest : List (ContractDeployment V)) (h : ∃ e ∈ rest, e.Name = c.Name) :
    AddContract.loop d c rest = d := by
  induction rest with
  | nil => simp at h
  | cons a t ih =>
    by_cases ha : c.Name = a.Name
    · simp [AddContract.loop, ha]
    · simp only [AddContract.loop, if_neg ha]
      obtain ⟨e, he, hname⟩ := h
      rcases List.mem_cons.mp he with rfl | he
      · exact absurd hname.symm ha
      · exact ih ⟨e, he, hname⟩

/-- The lookup finds nothing exactly when no record has both fields equal. -/
theorem ByAccountAndNetwork_eq_none_iff {V : Type} (ds : Deployments V)
    (account network : String) :
    ByAccountAndNetwork ds account network = none ↔
      ∀ r ∈ ds, ¬ (r.Network = network ∧ r.Account = account) := by
  constructor
  · intro hnone
    rcases first_split (fun r : Deployment V => r.Network = network ∧ r.Account = account) ds
      with hno | ⟨mid, x, post, rfl, hx, hmid⟩
    · exact hno
    · have := ByAccountAndNetwork_loop_first account network mid x post 0 hx hmid
      simp [ByAccountAndNetwork, this] at hnone
  · intro hno
    exact ByAccountAndNetwork_loop_none account network ds 0 hno

/-! ## Claims on the operations without deletion -/

/-- C1: if some record of `ds` has the account and the network of `dep`, then
`AddOrUpdate ds dep` is `ds` with `dep` written at the index `k` of the first
such record: the length is unchanged, position `k` holds `dep` as a whole (its
`Contracts` included, the old list is not merged in) and every other position
holds what it held before. -/
theorem AddOrUpdate_existing {V : Type} (ds : Deployments V) (dep : Deployment V)
    (h : ∃ r ∈ ds, r.Account = dep.Account ∧ r.Network = dep.Network) :
    ∃ k r, ds[k]? = some r ∧ (r.Account = dep.Account ∧ r.Network = dep.Network) ∧
      (∀ j r', j < k → ds[j]? = some r' →
        ¬ (r'.Account = dep.Account ∧ r'.Network = dep.Network)) ∧
      AddOrUpdate ds dep = ds.set k dep ∧
      (AddOrUpdate ds dep).length = ds.length ∧
      (AddOrUpdate ds dep)[k]? = some dep ∧
      ∀ j, j ≠ k → (AddOrUpdate ds dep)[j]? = ds[j]? := by
  obtain ⟨mid, x, post, rfl, hx, hmid⟩ :=
    first_split_of_exists (fun r : Deployment V => r.Account = dep.Account ∧ r.Network = dep.Network)
      ds h
  have hset : AddOrUpdate (mid ++ x :: post) dep = (mid ++ x :: post).set mid.length dep := by
    have := AddOrUpdate_loop_first (mid ++ x :: post) dep mid x post 0 hx hmid
    simpa [AddOrUpdate] using this
  refine ⟨mid.length, x, getElem?_split mid post x, hx, ?_, hset, ?_, ?_, ?_⟩
  · intro j r' hj hget
    rw [List.getElem?_append_left hj] at hget
    exact hmid r' (List.getElem?_mem hget)
  · rw [hset, List.length_set]
  · rw [hset, List.getElem?_set_self (by simp)]
  · intro j hj
    rw [hset, List.getElem?_set_ne (Ne.symm hj)]

/-- C2: if no record of `ds` has both the account and the network of `dep`, then
`AddOrUpdate ds dep` is `ds` followed by `dep`: one record longer, `dep` last,
the earlier records unchanged and in order. -/
theorem AddOrUpdate_new {V : Type} (ds : Deployments V) (dep : Deployment V)
    (h : ∀ r ∈ ds, ¬ (r.Account = dep.Account ∧ r.Network = dep.Network)) :
    AddOrUpdate ds dep = ds ++ [dep] ∧
      (AddOrUpdate ds dep).length = ds.length + 1 ∧
      (AddOrUpdate ds dep).getLast? = some dep ∧
      (AddOrUpdate ds dep).take ds.length = ds ∧
      ∀ j, j < ds.length → (AddOrUpdate ds dep)[j]? = ds[j]? := by
  have happ : AddOrUpdate ds dep = ds ++ [dep] := AddOrUpdate_loop_none ds dep ds 0 h
  refine ⟨happ, ?_, ?_, ?_, ?_⟩
  · rw [happ]; simp
  · rw [happ]; simp
  · rw [happ]; simp
  · intro j hj
    rw [happ, List.getElem?_append_left hj]

/-- C6: `ByAccountAndNetwork` is absent exactly when no record has both the
account and the network asked for; otherwise it points at the smallest index
whose record has both, so a record agreeing in one field only is not returned. -/
theorem ByAccountAndNetwork_first {V : Type} (ds : Deployments V) (account network : String) :
    (ByAccountAndNetwork ds account network = none ↔
        ∀ r ∈ ds, ¬ (r.Account = account ∧ r.Network = network)) ∧
      ∀ i, ByAccountAndNetwork ds account network = some i →
        ∃ r, ds[i]? = some r ∧ r.Account = account ∧ r.Network = network ∧
          ∀ j r', j < i → ds[j]? = some r' →
            ¬ (r'.Account = account ∧ r'.Network = network) := by
  constructor
  · rw [ByAccountAndNetwork_eq_none_iff]
    constructor
    · intro hno r hr hp
      exact hno r hr ⟨hp.2, hp.1⟩
    · intro hno r hr hp
      exact hno r hr ⟨hp.2, hp.1⟩
  · intro i hi
    rcases first_split (fun r : Deployment V => r.Network = network ∧ r.Account = account) ds
      with hno | ⟨mid, x, post, rfl, hx, hmid⟩
    · rw [(ByAccountAndNetwork_eq_none_iff ds account network).mpr hno] at hi
      exact absurd hi (by simp)
    · have hfirst := ByAccountAndNetwork_loop_first account network mid x post 0 hx hmid
      have hi' : i = mid.length := by
        simp only [ByAccountAndNetwork] at hi
        rw [hfirst] at hi
        simpa using hi.symm
      subst hi'
      refine ⟨x, getElem?_split mid post x, hx.2, hx.1, ?_⟩
      intro j r' hj hget hp
      rw [List.getElem?_append_left hj] at hget
      exact hmid r' (List.getElem?_mem hget) ⟨hp.2, hp.1⟩

/-- C7: `ByNetwork ds n` is `ds` filtered by `Network = n`: exactly the records of
that network, in their original relative order, and nothing when there is none.
The method does not write to its receiver. -/
theorem ByNetwork_eq_filter {V : Type} (ds : Deployments V) (n : String) :
    ByNetwork ds n = ds.filter (fun r => r.Network = n) ∧
      List.Sublist (ByNetwork ds n) ds ∧
      (∀ r, r ∈ ByNetwork ds n ↔ r ∈ ds ∧ r.Network = n) ∧
      ((∀ r ∈ ds, r.Network ≠ n) → ByNetwork ds n = []) := by
  have hf : ByNetwork ds n = ds.filter (fun r => r.Network = n) := by
    simp [ByNetwork, ByNetwork_loop_eq]
  refine ⟨hf, ?_, ?_, ?_⟩
  · rw [hf]; exact List.filter_sublist ds
  · intro r; rw [hf]; simp [List.mem_filter]
  · intro hno
    rw [hf, List.filter_eq_nil_iff]
    intro r hr
    simpa using hno r hr

/-- C8: if no entry of `d.Contracts` has the name of `c`, then `AddContract d c`
has the contracts of `d` followed by `c`: one entry longer, `c` (name and args as
supplied) last, the earlier entries in place, network and account unchanged. -/
theorem AddContract_new {V : Type} (d : Deployment V) (c : ContractDeployment V)
    (h : ∀ e ∈ d.Contracts, ¬ e.Name = c.Name) :
    (AddContract d c).Contracts = d.Contracts ++ [c] ∧
      (AddContract d c).Contracts.length = d.Contracts.length + 1 ∧
      (AddContract d c).Contracts.getLast? = some c ∧
      (AddContract d c).Contracts.take d.Contracts.length = d.Contracts ∧
      (AddContract d c).Network = d.Network ∧
      (AddContract d c).Account = d.Account := by
  have happ : AddContract d c = { d with Contracts := d.Contracts ++ [c] } :=
    AddContract_loop_absent d c d.Contracts h
  rw [happ]
  simp

/-- C9: if some entry of `d.Contracts` has the name of `c`, then `AddContract d c`
changes nothing (the entry keeps its own args); hence for `c1` and `c2` of the
same name, adding `c1` and then `c2` gives what adding `c1` alone gives. -/
theorem AddContract_duplicate {V : Type} :
    (∀ (d : Deployment V) (c : ContractDeployment V),
        (∃ e ∈ d.Contracts, e.Name = c.Name) → AddContract d c = d) ∧
      ∀ (d : Deployment V) (c1 c2 : ContractDeployment V), c1.Name = c2.Name →
        AddContract (AddContract d c1) c2 = AddContract d c1 := by
  have hnoop : ∀ (d : Deployment V) (c : ContractDeployment V),
      (∃ e ∈ d.Contracts, e.Name = c.Name) → AddContract d c = d :=
    fun d c h => AddContract_loop_present d c d.Contracts h
  refine ⟨hnoop, ?_⟩
  intro d c1 c2 h12
  apply hnoop
  by_cases hex : ∃ e ∈ d.Contracts, e.Name = c1.Name
  · rw [hnoop d c1 hex]
    obtain ⟨e, he, hname⟩ := hex
    exact ⟨e, he, hname.trans h12⟩
  · have habs : ∀ e ∈ d.Contracts, ¬ e.Name = c1.Name := fun e he hn => hex ⟨e, he, hn⟩
    have happ : AddContract d c1 = { d with Contracts := d.Contracts ++ [c1] } :=
      AddContract_loop_absent d c1 d.Contracts habs
    rw [happ]
    exact ⟨c1, by simp, h12⟩

/-- C3: `Remove` returns an error exactly when no record has the account and the
network asked for, which is exactly when `ByAccountAndNetwork` is absent, and a
call that returns an error leaves the collection as it was. -/
theorem Remove_error_iff {V : Type} (clearTail : Bool) (ds : Deployments V)
    (account network : String) :
    ((∃ e ds', Remove clearTail ds account network = some ⟨some e, ds'⟩) ↔
        ∀ r ∈ ds, ¬ (r.Account = account ∧ r.Network = network)) ∧
      ((∀ r ∈ ds, ¬ (r.Account = account ∧ r.Network = network)) ↔
        ByAccountAndNetwork ds account network = none) ∧
      ∀ e ds', Remove clearTail ds account network = some ⟨some e, ds'⟩ → ds' = ds := by
  have hswap : (∀ r ∈ ds, ¬ (r.Account = account ∧ r.Network = network)) ↔
      ByAccountAndNetwork ds account network = none := by
    rw [ByAccountAndNetwork_eq_none_iff]
    constructor
    · intro hno r hr hp
      exact hno r hr ⟨hp.2, hp.1⟩
    · intro hno r hr hp
      exact hno r hr ⟨hp.2, hp.1⟩
  refine ⟨?_, hswap, ?_⟩
  · rw [hswap]
    cases hb : ByAccountAndNetwork ds account network with
    | none => simp [Remove, hb]
    | some i =>
      simp [Remove, hb]
  · intro e ds' hrem
    cases hb : ByAccountAndNetwork ds account network with
    | none =>
      simp only [Remove, hb, Option.some.injEq, RemoveResult.mk.injEq] at hrem
      exact hrem.2.symm
    | some i =>
      simp [Remove, hb] at hrem

theorem drop_length_cons {α : Type} (x : α) (post : List α) :
    (x :: post).drop post.length = [post.getLastD x] := by
  induction post generalizing x with
  | nil => rfl
  | cons y ys ih =>
    rw [List.getLastD_cons]
    exact ih y

theorem appendTail_at_split {α : Type} (mid post : List α) (x : α) :
    Slice.appendTail (Slice.ofList (mid ++ x :: post)) mid.length (mid.length + 1) =
      ⟨mid ++ post ++ [post.getLastD x], mid.length + post.length⟩ := by
  have hsrc : ((mid ++ x :: post).take (mid ++ x :: post).length).drop (mid.length + 1) = post := by
    rw [List.take_length, List.drop_append]
    rfl
  have htake : (mid ++ x :: post).take mid.length = mid := by
    rw [List.take_left]
  have hdrop : (mid ++ x :: post).drop (mid.length + post.length) = [post.getLastD x] := by
    rw [List.drop_append, drop_length_cons]
  simp only [Slice.appendTail, Slice.ofList, hsrc, htake, hdrop]

theorem slicesDelete_at_split {α : Type} (clearTail : Bool) (zero : α) (mid post : List α) (x : α) :
    slicesDelete clearTail zero (Slice.ofList (mid ++ x :: post)) mid.length (mid.length + 1) =
      some ⟨mid ++ post ++ [tailCell clearTail zero x post], mid.length + post.length⟩ := by
  cases clearTail with
  | false =>
    simp only [slicesDelete, tailCell, Bool.false_eq_true, if_false, appendTail_at_split]
    simp [Slice.ofList]
  | true =>
    have htake : (mid ++ post ++ [post.getLastD x]).take (mid.length + post.length) =
        mid ++ post := by
      rw [← List.length_append]
      exact List.take_left _ _
    have hdrop : (mid ++ post ++ [post.getLastD x]).drop (mid ++ x :: post).length = [] := by
      apply List.drop_eq_nil_of_le
      simp
    have hone : (mid ++ x :: post).length - (mid.length + post.length) = 1 := by
      simp only [List.length_append, List.length_cons]
      omega
    have hlen : mid.length + 1 ≤ (mid ++ x :: post).length := by simp
    simp only [slicesDelete, tailCell, if_true, appendTail_at_split, Slice.clear, htake]
    simp only [Slice.ofList, hdrop, hone, hlen]
    simp

/-- Iterations over cells that do not satisfy `p` leave the slice as it is. -/
theorem rangeDelete_skip {α : Type} (clearTail : Bool) (zero : α) (p : α → Prop) [DecidablePred p]
    (a b i : Nat) (s : Slice α)
    (h : ∀ k, i ≤ k → k < i + a → ∃ x, s.arr[k]? = some x ∧ ¬ p x) :
    rangeDelete clearTail zero p (a + b) i s = rangeDelete clearTail zero p b (i + a) s := by
  induction a generalizing i with
  | zero => simp
  | succ a ih =>
    obtain ⟨x, hx, hpx⟩ := h i (le_refl i) (by omega)
    have hfuel : a + 1 + b = (a + b) + 1 := by omega
    rw [hfuel, rangeDelete, hx]
    simp only [if_neg hpx]
    rw [ih (i + 1) (fun k hk1 hk2 => h k (by omega) (by omega))]
    congr 1
    omega

theorem rangeDelete_none_match {α : Type} (clearTail : Bool) (zero : α) (p : α → Prop)
    [DecidablePred p] (a i : Nat) (s : Slice α)
    (h : ∀ k, i ≤ k → k < i + a → ∃ x, s.arr[k]? = some x ∧ ¬ p x) :
    rangeDelete clearTail zero p a i s = some s := by
  have := rangeDelete_skip clearTail zero p a 0 i s h
  simpa [rangeDelete] using this

/-- The deleting loop on a list whose only element satisfying `p` is `x`. -/
theorem rangeDelete_unique {α : Type} (clearTail : Bool) (zero : α) (p : α → Prop)
    [DecidablePred p] (mid post : List α) (x : α)
    (hx : p x) (hmid : ∀ r ∈ mid, ¬ p r) (hpost : ∀ r ∈ post, ¬ p r)
    (hzero : clearTail = false ∨ ¬ p zero ∨ post = []) :
    rangeDelete clearTail zero p (mid ++ x :: post).length 0 (Slice.ofList (mid ++ x :: post)) =
      some ⟨mid ++ post ++ [tailCell clearTail zero x post], mid.length + post.length⟩ := by
  have hlen : (mid ++ x :: post).length = mid.length + (post.length + 1) := by simp
  rw [hlen, rangeDelete_skip clearTail zero p mid.length (post.length + 1) 0]
  · have hcell : (Slice.ofList (mid ++ x :: post)).arr[0 + mid.length]? = some x := by
      simp only [Slice.ofList, Nat.zero_add]
      exact getElem?_split mid post x
    rw [rangeDelete, hcell]
    simp only [if_pos hx, Nat.zero_add, slicesDelete_at_split, Option.some_bind]
    apply rangeDelete_none_match
    intro k hk1 hk2
    by_cases hlast : k = mid.length + post.length
    · refine ⟨tailCell clearTail zero x post, ?_, ?_⟩
      · subst hlast
        rw [← List.length_append]
        exact getElem?_split (mid ++ post) [] _
      · have hne : post ≠ [] := by
          intro hnil
          subst hnil
          simp at hlast
          omega
        unfold tailCell
        cases clearTail with
        | false =>
          simp only [Bool.false_eq_true, if_false]
          apply hpost
          rw [List.getLastD_eq_getLast?]
          obtain ⟨y, hy⟩ := Option.isSome_iff_exists.mp (List.getLast?_isSome.mpr hne)
          rw [hy]
          exact List.mem_of_getLast?_eq_some hy
        | true =>
          simp only [if_true]
          rcases hzero with h0 | h0 | h0
          · exact absurd h0 (by simp)
          · exact h0
          · exact absurd h0 hne
    · have hk3 : k - mid.length < post.length := by omega
      refine ⟨post[k - mid.length], ?_, hpost _ (List.getElem_mem hk3)⟩
      rw [List.append_assoc, List.getElem?_append_right (by omega),
        List.getElem?_append_left hk3, List.getElem?_eq_getElem hk3]
  · intro k _ hk2
    have hk3 : k < mid.length := by omega
    refine ⟨mid[k], ?_, hmid _ (List.getElem_mem hk3)⟩
    simp only [Slice.ofList]
    rw [List.getElem?_append_left hk3, List.getElem?_eq_getElem hk3]

/-- `Remove` on a collection in which exactly one record, `x`, has the account
and the network asked for. With a `slices.Delete` that clears the vacated cell
the zero record must not be what is asked for, unless `x` is the last record. -/
theorem Remove_single {V : Type} (clearTail : Bool) (mid post : List (Deployment V))
    (x : Deployment V) (account network : String)
    (hx : x.Network = network ∧ x.Account = account)
    (hmid : ∀ r ∈ mid, ¬ (r.Network = network ∧ r.Account = account))
    (hpost : ∀ r ∈ post, ¬ (r.Network = network ∧ r.Account = account))
    (hzero : clearTail = false ∨ ¬ ("" = network ∧ "" = account) ∨ post = []) :
    Remove clearTail (mid ++ x :: post) account network = some ⟨none, mid ++ post⟩ := by
  have hfound : ByAccountAndNetwork (mid ++ x :: post) account network = some (0 + mid.length) :=
    ByAccountAndNetwork_loop_first account network mid x post 0 hx hmid
  have hloop := rangeDelete_unique clearTail (Deployment.zero V)
    (fun deployment : Deployment V => deployment.Network = network ∧ deployment.Account = account)
    mid post x hx hmid hpost hzero
  simp only [Remove, hfound, hloop, Option.map_some', Slice.toList]
  rw [← List.length_append, List.take_left]

/-! ## Claims on the deleting operations -/

/-- C5: on a collection with at most one record per (account, network) pair that
holds a record `x` for the pair asked for, `Remove` returns no error and leaves
the collection without `x`: one record shorter, the others unchanged and in
order, and `ByAccountAndNetwork` for the pair is then absent. (`slices.Delete`
as published when the file was written; `Remove_single` covers the later one.) -/
theorem Remove_unique {V : Type} (ds : Deployments V) (account network : String)
    (huniq : ds.Pairwise (fun a b => ¬ (a.Account = b.Account ∧ a.Network = b.Network)))
    (hex : ∃ r ∈ ds, r.Account = account ∧ r.Network = network) :
    ∃ mid x post, ds = mid ++ x :: post ∧ (x.Account = account ∧ x.Network = network) ∧
      Remove false ds account network = some ⟨none, mid ++ post⟩ ∧
      (mid ++ post).length + 1 = ds.length ∧
      (∀ r ∈ mid ++ post, ¬ (r.Account = account ∧ r.Network = network)) ∧
      ByAccountAndNetwork (mid ++ post) account network = none := by
  have hex' : ∃ r ∈ ds, r.Network = network ∧ r.Account = account := by
    obtain ⟨r, hr, hp⟩ := hex
    exact ⟨r, hr, hp.2, hp.1⟩
  obtain ⟨mid, x, post, rfl, hx, hmid⟩ :=
    first_split_of_exists (fun r : Deployment V => r.Network = network ∧ r.Account = account)
      ds hex'
  have hpost : ∀ r ∈ post, ¬ (r.Network = network ∧ r.Account = account) := by
    intro r hr hp
    have hpair := (List.pairwise_cons.mp (List.pairwise_append.mp huniq).2.1).1 r hr
    exact hpair ⟨hx.2.trans hp.2.symm, hx.1.trans hp.1.symm⟩
  have hrest : ∀ r ∈ mid ++ post, ¬ (r.Network = network ∧ r.Account = account) := by
    intro r hr
    rcases List.mem_append.mp hr with h | h
    · exact hmid r h
    · exact hpost r h
  refine ⟨mid, x, post, rfl, ⟨hx.2, hx.1⟩, ?_, ?_, ?_, ?_⟩
  · exact Remove_single false mid post x account network hx hmid hpost (Or.inl rfl)
  · simp only [List.length_append, List.length_cons]
    omega
  · intro r hr hp
    exact hrest r hr ⟨hp.2, hp.1⟩
  · exact (ByAccountAndNetwork_eq_none_iff (mid ++ post) account network).mpr hrest

/-- C4: `Remove` at a collection with two adjacent records for the pair: the call
returns no error and the second of the two records is still there, found again
by `ByAccountAndNetwork`; the records that do not match are only the one for bob.
With the two records apart, the call panics or removes both, depending on the
revision of `slices.Delete`. -/
theorem Remove_adjacent_duplicate :
    Remove false adjacentDeployments "alice" "testnet" =
        some ⟨none, [⟨"testnet", "alice", [⟨"Token", []⟩]⟩, ⟨"testnet", "bob", []⟩]⟩ ∧
      Remove true adjacentDeployments "alice" "testnet" =
        some ⟨none, [⟨"testnet", "alice", [⟨"Token", []⟩]⟩, ⟨"testnet", "bob", []⟩]⟩ ∧
      ByAccountAndNetwork
        ([⟨"testnet", "alice", [⟨"Token", []⟩]⟩, ⟨"testnet", "bob", []⟩] : Deployments Nat)
        "alice" "testnet" = some 0 ∧
      adjacentDeployments.filter (fun r => ¬ (r.Account = "alice" ∧ r.Network = "testnet")) =
        [⟨"testnet", "bob", []⟩] ∧
      Remove false separatedDeployments "alice" "testnet" = none ∧
      Remove true separatedDeployments "alice" "testnet" = some ⟨none, [⟨"testnet", "bob", []⟩]⟩ := by
  refine ⟨?_, ?_, ?_, ?_, ?_, ?_⟩ <;> decide

/-- C10: `RemoveContract` at a deployment with two adjacent contracts named
Token: the second of them is still in the list after the call, whereas the list
without the entries of that name holds only NFT. With the two entries apart, the
call panics or removes both, depending on the revision of `slices.Delete`. -/
theorem RemoveContract_adjacent_duplicate :
    RemoveContract false adjacentContracts "Token" =
        some ⟨"testnet", "alice", [⟨"Token", [2]⟩, ⟨"NFT", []⟩]⟩ ∧
      RemoveContract true adjacentContracts "Token" =
        some ⟨"testnet", "alice", [⟨"Token", [2]⟩, ⟨"NFT", []⟩]⟩ ∧
      adjacentContracts.Contracts.filter (fun c => ¬ c.Name = "Token") = [⟨"NFT", []⟩] ∧
      RemoveContract false separatedContracts "Token" = none ∧
      RemoveContract true separatedContracts "Token" = some ⟨"testnet", "alice", [⟨"NFT", []⟩]⟩ := by
  refine ⟨?_, ?_, ?_, ?_, ?_⟩ <;> decide

/-! ## The hypotheses of the claims hold at concrete inputs -/

theorem AddOrUpdate_existing_witness :
    (∃ r ∈ sampleDeployments,
        r.Account = sampleUpdate.Account ∧ r.Network = sampleUpdate.Network) ∧
      ∃ k r, sampleDeployments[k]? = some r ∧
        (r.Account = sampleUpdate.Account ∧ r.Network = sampleUpdate.Network) ∧
        (∀ j r', j < k → sampleDeployments[j]? = some r' →
          ¬ (r'.Account = sampleUpdate.Account ∧ r'.Network = sampleUpdate.Network)) ∧
        AddOrUpdate sampleDeployments sampleUpdate = sampleDeployments.set k sampleUpdate ∧
        (AddOrUpdate sampleDeployments sampleUpdate).length = sampleDeployments.length ∧
        (AddOrUpdate sampleDeployments sampleUpdate)[k]? = some sampleUpdate ∧
        ∀ j, j ≠ k → (AddOrUpdate sampleDeployments sampleUpdate)[j]? = sampleDeployments[j]? :=
  ⟨by decide, AddOrUpdate_existing sampleDeployments sampleUpdate (by decide)⟩

theorem AddOrUpdate_new_witness :
    (∀ r ∈ sampleDeployments,
        ¬ (r.Account = sampleNew.Account ∧ r.Network = sampleNew.Network)) ∧
      AddOrUpdate sampleDeployments sampleNew = sampleDeployments ++ [sampleNew] ∧
      (AddOrUpdate sampleDeployments sampleNew).length = sampleDeployments.length + 1 ∧
      (AddOrUpdate sampleDeployments sampleNew).getLast? = some sampleNew ∧
      (AddOrUpdate sampleDeployments sampleNew).take sampleDeployments.length =
        sampleDeployments ∧
      ∀ j, j < sampleDeployments.length →
        (AddOrUpdate sampleDeployments sampleNew)[j]? = sampleDeployments[j]? :=
  ⟨by decide, AddOrUpdate_new sampleDeployments sampleNew (by decide)⟩

theorem AddContract_new_witness :
    (∀ e ∈ sampleUpdate.Contracts, ¬ e.Name = (⟨"Token", [3, 4]⟩ : ContractDeployment Nat).Name) ∧
      (AddContract sampleUpdate ⟨"Token", [3, 4]⟩).Contracts =
        sampleUpdate.Contracts ++ [⟨"Token", [3, 4]⟩] ∧
      (AddContract sampleUpdate ⟨"Token", [3, 4]⟩).Contracts.length =
        sampleUpdate.Contracts.length + 1 ∧
      (AddContract sampleUpdate ⟨"Token", [3, 4]⟩).Contracts.getLast? = some ⟨"Token", [3, 4]⟩ ∧
      (AddContract sampleUpdate ⟨"Token", [3, 4]⟩).Contracts.take sampleUpdate.Contracts.length =
        sampleUpdate.Contracts ∧
      (AddContract sampleUpdate ⟨"Token", [3, 4]⟩).Network = sampleUpdate.Network ∧
      (AddContract sampleUpdate ⟨"Token", [3, 4]⟩).Account = sampleUpdate.Account :=
  ⟨by decide, AddContract_new sampleUpdate ⟨"Token", [3, 4]⟩ (by decide)⟩

theorem Remove_unique_witness :
    sampleDeployments.Pairwise
        (fun a b => ¬ (a.Account = b.Account ∧ a.Network = b.Network)) ∧
      (∃ r ∈ sampleDeployments, r.Account = "alice" ∧ r.Network = "testnet") ∧
      ∃ mid x post, sampleDeployments = mid ++ x :: post ∧
        (x.Account = "alice" ∧ x.Network = "testnet") ∧
        Remove false sampleDeployments "alice" "testnet" = some ⟨none, mid ++ post⟩ ∧
        (mid ++ post).length + 1 = sampleDeployments.length ∧
        (∀ r ∈ mid ++ post, ¬ (r.Account = "alice" ∧ r.Network = "testnet")) ∧
        ByAccountAndNetwork (mid ++ post) "alice" "testnet" = none :=
  ⟨by decide, by decide,
    Remove_unique sampleDeployments "alice" "testnet" (by decide) (by decide)⟩

/-! ## Further facts on the loops -/

/-- Writing at the index at which a list is split replaces the element there. -/
theorem set_split {α : Type} (mid post : List α) (x y : α) :
    (mid ++ x :: post).set mid.length y = mid ++ y :: post := by
  induction mid with
  | nil => rfl
  | cons a t ih => simp [List.set, ih]

/-- The shape of the collection after `AddOrUpdate`: the new record stands after
the records `mid` that precede the first match, or after all of `ds`. -/
theorem AddOrUpdate_split {V : Type} (ds : Deployments V) (dep : Deployment V) :
    ∃ mid post, (∀ r ∈ mid, ¬ (r.Account = dep.Account ∧ r.Network = dep.Network)) ∧
      AddOrUpdate ds dep = mid ++ dep :: post ∧
      ((ds = mid ∧ post = []) ∨
        ∃ x, ds = mid ++ x :: post ∧ x.Account = dep.Account ∧ x.Network = dep.Network) := by
  rcases first_split
      (fun r : Deployment V => r.Account = dep.Account ∧ r.Network = dep.Network) ds
    with hno | ⟨mid, x, post, rfl, hx, hmid⟩
  · exact ⟨ds, [], hno, AddOrUpdate_loop_none ds dep ds 0 hno, Or.inl ⟨rfl, rfl⟩⟩
  · refine ⟨mid, post, hmid, ?_, Or.inr ⟨x, rfl, hx⟩⟩
    have := AddOrUpdate_loop_first (mid ++ x :: post) dep mid x post 0 hx hmid
    simpa [AddOrUpdate, set_split] using this

/-- What a present result of the lookup points at. -/
theorem ByAccountAndNetwork_some {V : Type} (ds : Deployments V) (account network : String)
    (i : Nat) (h : ByAccountAndNetwork ds account network = some i) :
    ∃ mid x post, ds = mid ++ x :: post ∧ i = mid.length ∧
      (x.Network = network ∧ x.Account = account) ∧
      ∀ r ∈ mid, ¬ (r.Network = network ∧ r.Account = account) := by
  rcases first_split (fun r : Deployment V => r.Network = network ∧ r.Account = account) ds
    with hno | ⟨mid, x, post, rfl, hx, hmid⟩
  · rw [(ByAccountAndNetwork_eq_none_iff ds account network).mpr hno] at h
    exact absurd h (by simp)
  · have hfirst := ByAccountAndNetwork_loop_first account network mid x post 0 hx hmid
    refine ⟨mid, x, post, rfl, ?_, hx, hmid⟩
    simp only [ByAccountAndNetwork] at h
    rw [hfirst] at h
    simpa using h.symm

/-- The lookup does not see a record that has not both fields asked for:
exchanging such a record for another such record changes nothing. -/
theorem ByAccountAndNetwork_loop_exchange {V : Type} (account network : String)
    (mid post : List (Deployment V)) (y z : Deployment V) (i : Nat)
    (hy : ¬ (y.Network = network ∧ y.Account = account))
    (hz : ¬ (z.Network = network ∧ z.Account = account)) :
    ByAccountAndNetwork.loop account network i (mid ++ y :: post) =
      ByAccountAndNetwork.loop account network i (mid ++ z :: post) := by
  induction mid generalizing i with
  | nil => simp [ByAccountAndNetwork.loop, hy, hz]
  | cons a t ih =>
    rw [List.cons_append, List.cons_append, ByAccountAndNetwork.loop, ByAccountAndNetwork.loop,
      ih (i + 1)]

/-- The lookup does not see a record appended at the end that has not both
fields asked for. -/
theorem ByAccountAndNetwork_loop_append {V : Type} (account network : String)
    (l : List (Deployment V)) (y : Deployment V) (i : Nat)
    (hy : ¬ (y.Network = network ∧ y.Account = account)) :
    ByAccountAndNetwork.loop account network i (l ++ [y]) =
      ByAccountAndNetwork.loop account network i l := by
  induction l generalizing i with
  | nil => simp [ByAccountAndNetwork.loop, hy]
  | cons a t ih =>
    rw [List.cons_append, ByAccountAndNetwork.loop, ByAccountAndNetwork.loop, ih (i + 1)]

/-- The elements of the slice made from a list are the list. -/
theorem toList_ofList {α : Type} (l : List α) : (Slice.ofList l).toList = l := by
  simp [Slice.toList, Slice.ofList]

/-- The deleting loop on a list with no element satisfying `p`. -/
theorem rangeDelete_absent {α : Type} (clearTail : Bool) (zero : α) (p : α → Prop)
    [DecidablePred p] (l : List α) (h : ∀ r ∈ l, ¬ p r) :
    rangeDelete clearTail zero p l.length 0 (Slice.ofList l) = some (Slice.ofList l) := by
  apply rangeDelete_none_match
  intro k _ hk
  have hk' : k < l.length := by omega
  refine ⟨l[k], ?_, h _ (List.getElem_mem hk')⟩
  simp only [Slice.ofList]
  exact List.getElem?_eq_getElem hk'

/-! ## Claims on no-ops, idempotence, lookups and round trips -/

/-- C11: if no entry of `d.Contracts` has the name `contractName`, then
`RemoveContract` returns (no panic, the method has no error result) and leaves
the deployment as it was: the same entries in the same order, the same length. -/
theorem RemoveContract_absent {V : Type} (clearTail : Bool) (d : Deployment V)
    (contractName : String) (h : ∀ e ∈ d.Contracts, ¬ e.Name = contractName) :
    RemoveContract clearTail d contractName = some d ∧
      ∀ d', RemoveContract clearTail d contractName = some d' →
        d'.Contracts = d.Contracts ∧ d'.Contracts.length = d.Contracts.length := by
  have hsame : RemoveContract clearTail d contractName = some d := by
    have hloop := rangeDelete_absent clearTail (ContractDeployment.zero V)
      (fun contract : ContractDeployment V => contract.Name = contractName) d.Contracts h
    simp only [RemoveContract, hloop, Option.map_some', toList_ofList]
  refine ⟨hsame, ?_⟩
  intro d' hd'
  rw [hsame] at hd'
  cases hd'
  exact ⟨rfl, rfl⟩

/-- C14: `AddOrUpdate` is idempotent: a second call with the same record gives the
collection that the first call gave, whatever `ds` held for the pair. -/
theorem AddOrUpdate_idempotent {V : Type} (ds : Deployments V) (dep : Deployment V) :
    AddOrUpdate (AddOrUpdate ds dep) dep = AddOrUpdate ds dep ∧
      (AddOrUpdate (AddOrUpdate ds dep) dep).length = (AddOrUpdate ds dep).length := by
  obtain ⟨mid, post, hmid, hshape, _⟩ := AddOrUpdate_split ds dep
  have hagain : AddOrUpdate (AddOrUpdate ds dep) dep = AddOrUpdate ds dep := by
    rw [hshape]
    have := AddOrUpdate_loop_first (mid ++ dep :: post) dep mid dep post 0 ⟨rfl, rfl⟩ hmid
    simpa [AddOrUpdate, set_split] using this
  exact ⟨hagain, by rw [hagain]⟩

/-- C17: when `Remove` returns an error, its message is
"deployment for account A on network N does not exist in configuration" with the
account for A and the network for N, so both strings occur in it. -/
theorem Remove_error_message {V : Type} (clearTail : Bool) (ds : Deployments V)
    (account network e : String) (ds' : Deployments V)
    (h : Remove clearTail ds account network = some ⟨some e, ds'⟩) :
    e = "deployment for account " ++ account ++ " on network " ++ network ++
          " does not exist in configuration" ∧
      (∃ pre post, e = pre ++ account ++ post) ∧
      ∃ pre post, e = pre ++ network ++ post := by
  have he : e = "deployment for account " ++ account ++ " on network " ++ network ++
      " does not exist in configuration" := by
    cases hb : ByAccountAndNetwork ds account network with
    | none =>
      simp only [Remove, hb, Option.some.injEq, RemoveResult.mk.injEq, removeError] at h
      exact h.1.symm
    | some i => simp [Remove, hb] at h
  refine ⟨he, ?_, ?_⟩
  · exact ⟨"deployment for account ",
      " on network " ++ network ++ " does not exist in configuration",
      by rw [he]; simp [String.append_assoc]⟩
  · exact ⟨"deployment for account " ++ account ++ " on network ",
      " does not exist in configuration", he⟩

/-- C19: after `AddOrUpdate ds dep` the lookup for the pair of `dep` is present and
points at a record equal to `dep`; for any other pair the lookup gives what it
gave before, the same pointer designating the same record. -/
theorem ByAccountAndNetwork_AddOrUpdate {V : Type} (ds : Deployments V) (dep : Deployment V) :
    (∃ i, ByAccountAndNetwork (AddOrUpdate ds dep) dep.Account dep.Network = some i ∧
        (AddOrUpdate ds dep)[i]? = some dep) ∧
      ∀ account network, ¬ (account = dep.Account ∧ network = dep.Network) →
        ByAccountAndNetwork (AddOrUpdate ds dep) account network =
            ByAccountAndNetwork ds account network ∧
          ∀ i, ByAccountAndNetwork ds account network = some i →
            (AddOrUpdate ds dep)[i]? = ds[i]? := by
  obtain ⟨mid, post, hmid, hshape, hds⟩ := AddOrUpdate_split ds dep
  constructor
  · refine ⟨mid.length, ?_, ?_⟩
    · rw [hshape]
      have hmid' : ∀ r ∈ mid, ¬ (r.Network = dep.Network ∧ r.Account = dep.Account) :=
        fun r hr hp => hmid r hr ⟨hp.2, hp.1⟩
      have := ByAccountAndNetwork_loop_first dep.Account dep.Network mid dep post 0
        ⟨rfl, rfl⟩ hmid'
      simpa [ByAccountAndNetwork] using this
    · rw [hshape]
      exact getElem?_split mid post dep
  · intro account network hother
    have hdep : ¬ (dep.Network = network ∧ dep.Account = account) :=
      fun hp => hother ⟨hp.2.symm, hp.1.symm⟩
    rcases hds with ⟨rfl, rfl⟩ | ⟨x, rfl, hxa, hxn⟩
    · constructor
      · rw [hshape]
        exact ByAccountAndNetwork_loop_append account network ds dep 0 hdep
      · intro i hi
        obtain ⟨m, y, p, hsplit, rfl, _, _⟩ := ByAccountAndNetwork_some ds account network i hi
        rw [hshape]
        apply List.getElem?_append_left
        rw [hsplit]
        simp
    · have hx : ¬ (x.Network = network ∧ x.Account = account) :=
        fun hp => hother ⟨hp.2.symm.trans hxa, hp.1.symm.trans hxn⟩
      constructor
      · rw [hshape]
        exact ByAccountAndNetwork_loop_exchange account network mid post dep x 0 hdep hx
      · intro i hi
        obtain ⟨m, y, p, hsplit, rfl, hy, _⟩ :=
          ByAccountAndNetwork_some (mid ++ x :: post) account network i hi
        have hne : mid.length ≠ m.length := by
          intro heq
          have h1 := getElem?_split mid post x
          have h2 := getElem?_split m p y
          rw [hsplit, heq, h2] at h1
          cases h1
          exact hx hy
        rw [hshape, ← set_split mid post x dep, List.getElem?_set_ne hne]

/-- C20: if `ds` has no record for the pair of `dep`, then `AddOrUpdate ds dep`
followed by `Remove` for that pair returns no error and gives back exactly `ds`. -/
theorem Remove_AddOrUpdate {V : Type} (clearTail : Bool) (ds : Deployments V)
    (dep : Deployment V)
    (h : ∀ r ∈ ds, ¬ (r.Account = dep.Account ∧ r.Network = dep.Network)) :
    Remove clearTail (AddOrUpdate ds dep) dep.Account dep.Network = some ⟨none, ds⟩ := by
  have happ : AddOrUpdate ds dep = ds ++ [dep] := AddOrUpdate_loop_none ds dep ds 0 h
  have h' : ∀ r ∈ ds, ¬ (r.Network = dep.Network ∧ r.Account = dep.Account) :=
    fun r hr hp => h r hr ⟨hp.2, hp.1⟩
  have := Remove_single clearTail ds [] dep dep.Account dep.Network ⟨rfl, rfl⟩ h'
    (by simp) (Or.inr (Or.inr rfl))
  rw [happ]
  simpa using this

/-- C16: the scenario from the empty collection. `AddOrUpdate` of the record for
alice on testnet gives length 1; `AddContract` of Token through the pointer
found by `ByAccountAndNetwork` makes the stored record hold exactly the entry
Token; `Remove` then returns no error and leaves length 0; a second `Remove`
returns an error whose message contains alice and testnet and leaves the
collection empty. -/
theorem scenario_alice_testnet {V : Type} (clearTail : Bool) :
    (AddOrUpdate ([] : Deployments V) ⟨"testnet", "alice", []⟩).length = 1 ∧
      ByAccountAndNetwork (AddOrUpdate ([] : Deployments V) ⟨"testnet", "alice", []⟩)
        "alice" "testnet" = some 0 ∧
      addContractAt (AddOrUpdate ([] : Deployments V) ⟨"testnet", "alice", []⟩)
        "alice" "testnet" ⟨"Token", []⟩ = some [⟨"testnet", "alice", [⟨"Token", []⟩]⟩] ∧
      Remove clearTail ([⟨"testnet", "alice", [⟨"Token", []⟩]⟩] : Deployments V)
        "alice" "testnet" = some ⟨none, []⟩ ∧
      ([] : Deployments V).length = 0 ∧
      Remove clearTail ([] : Deployments V) "alice" "testnet" =
        some ⟨some "deployment for account alice on network testnet does not exist in configuration",
          []⟩ ∧
      (∃ pre post,
        "deployment for account alice on network testnet does not exist in configuration" =
          pre ++ "alice" ++ post) ∧
      ∃ pre post,
        "deployment for account alice on network testnet does not exist in configuration" =
          pre ++ "testnet" ++ post := by
  refine ⟨rfl, rfl, rfl, ?_, rfl, ?_, ?_, ?_⟩
  · cases clearTail <;> rfl
  · cases clearTail <;> rfl
  · exact ⟨"deployment for account ", " on network testnet does not exist in configuration",
      by decide⟩
  · exact ⟨"deployment for account alice on network ", " does not exist in configuration",
      by decide⟩

/-! ## What the deleting loop can leave -/

/-- The expression `append(s[:i], s[i+1:]...)` removes element `i` of the slice. -/
theorem appendTail_toList {α : Type} (s : Slice α) (i : Nat)
    (hs : s.len ≤ s.arr.length) (hi : i + 1 ≤ s.len) :
    (s.appendTail i (i + 1)).toList = s.toList.eraseIdx i ∧
      (s.appendTail i (i + 1)).len + 1 = s.len ∧
      (s.appendTail i (i + 1)).len ≤ (s.appendTail i (i + 1)).arr.length := by
  have hsrc : ((s.arr.take s.len).drop (i + 1)).length = s.len - (i + 1) := by
    rw [List.length_drop, List.length_take, min_eq_left hs]
  have htake : (s.arr.take i).length = i := by
    rw [List.length_take]
    exact min_eq_left (by omega)
  refine ⟨?_, ?_, ?_⟩
  · simp only [Slice.appendTail, Slice.toList]
    rw [List.eraseIdx_eq_take_drop_succ, List.take_take, min_eq_left (by omega : i ≤ s.len)]
    apply List.take_left'
    rw [List.length_append, htake]
  · simp only [Slice.appendTail, hsrc]
    omega
  · simp only [Slice.appendTail, List.length_append, htake, hsrc, List.length_drop]
    omega

/-- A call `slices.Delete(s, i, i+1)` that returns has removed element `i`. -/
theorem slicesDelete_toList {α : Type} (clearTail : Bool) (zero : α) (s s' : Slice α) (i : Nat)
    (hs : s.len ≤ s.arr.length) (h : slicesDelete clearTail zero s i (i + 1) = some s') :
    s'.toList = s.toList.eraseIdx i ∧ s'.len ≤ s'.arr.length := by
  cases clearTail with
  | false =>
    simp only [slicesDelete, Bool.false_eq_true, if_false] at h
    split at h
    · split at h
      · rename_i hi
        cases h
        have := appendTail_toList s i hs hi
        exact ⟨this.1, this.2.2⟩
      · exact absurd h (by simp)
    · exact absurd h (by simp)
  | true =>
    simp only [slicesDelete, if_true] at h
    split at h
    · rename_i hi
      rw [if_neg (by omega)] at h
      cases h
      obtain ⟨h1, h2, h3⟩ := appendTail_toList s i hs hi.2
      constructor
      · rw [← h1]
        simp only [Slice.clear, Slice.toList, List.append_assoc]
        rw [List.take_left' (by rw [List.length_take]; exact min_eq_left h3)]
      · simp only [Slice.clear, List.length_append, List.length_take, List.length_replicate,
          List.length_drop]
        omega
    · exact absurd h (by simp)

/-- Whatever the deleting loop returns is a sublist of the slice it started on. -/
theorem rangeDelete_sublist {α : Type} (clearTail : Bool) (zero : α) (p : α → Prop)
    [DecidablePred p] (fuel i : Nat) (s s' : Slice α) (hs : s.len ≤ s.arr.length)
    (h : rangeDelete clearTail zero p fuel i s = some s') :
    List.Sublist s'.toList s.toList := by
  induction fuel generalizing i s with
  | zero =>
    simp only [rangeDelete, Option.some.injEq] at h
    rw [h]
  | succ fuel ih =>
    rw [rangeDelete] at h
    cases hx : s.arr[i]? with
    | none => simp [hx] at h
    | some x =>
      simp only [hx] at h
      by_cases hp : p x
      · rw [if_pos hp] at h
        cases hd : slicesDelete clearTail zero s i (i + 1) with
        | none => simp [hd] at h
        | some s1 =>
          simp only [hd, Option.some_bind] at h
          obtain ⟨h1, h2⟩ := slicesDelete_toList clearTail zero s s1 i hs hd
          have := ih (i + 1) s1 h2 h
          rw [h1] at this
          exact this.trans (List.eraseIdx_sublist _ _)
      · rw [if_neg hp] at h
        exact ih (i + 1) s hs h

/-! ## The two uniqueness invariants -/

theorem AddOrUpdate_UniquePairs {V : Type} (ds : Deployments V) (dep : Deployment V)
    (h : UniquePairs ds) : UniquePairs (AddOrUpdate ds dep) := by
  obtain ⟨mid, post, hmid, hshape, hds⟩ := AddOrUpdate_split ds dep
  unfold UniquePairs at h ⊢
  rw [hshape]
  rcases hds with ⟨rfl, rfl⟩ | ⟨x, rfl, hxa, hxn⟩
  · rw [List.pairwise_append]
    refine ⟨h, List.pairwise_singleton _ _, ?_⟩
    intro a ha b hb
    rw [List.mem_singleton] at hb
    subst hb
    exact hmid a ha
  · rw [List.pairwise_append, List.pairwise_cons] at h ⊢
    obtain ⟨h1, ⟨h2, h3⟩, h4⟩ := h
    refine ⟨h1, ⟨?_, h3⟩, ?_⟩
    · intro b hb hp
      exact h2 b hb ⟨hxa.trans hp.1, hxn.trans hp.2⟩
    · intro a ha b hb
      rcases List.mem_cons.mp hb with rfl | hb
      · exact hmid a ha
      · exact h4 a ha b (List.mem_cons_of_mem x hb)

/-- A call of `Remove` that returns leaves a sublist of the collection. -/
theorem Remove_sublist {V : Type} (clearTail : Bool) (ds : Deployments V)
    (account network : String) (r : RemoveResult V)
    (h : Remove clearTail ds account network = some r) : List.Sublist r.d ds := by
  cases hb : ByAccountAndNetwork ds account network with
  | none =>
    simp only [Remove, hb, Option.some.injEq] at h
    rw [← h]
  | some i =>
    simp only [Remove, hb, Option.map_eq_some'] at h
    obtain ⟨s, hs, rfl⟩ := h
    have := rangeDelete_sublist clearTail (Deployment.zero V) _ ds.length 0 (Slice.ofList ds) s
      (le_refl _) hs
    rwa [toList_ofList] at this

/-- On a collection with one record per pair `Remove` returns. -/
theorem Remove_returns {V : Type} (ds : Deployments V) (account network : String)
    (h : UniquePairs ds) : ∃ r, Remove false ds account network = some r := by
  rcases first_split (fun r : Deployment V => r.Network = network ∧ r.Account = account) ds
    with hno | ⟨mid, x, post, rfl, hx, hmid⟩
  · have hb := (ByAccountAndNetwork_eq_none_iff ds account network).mpr hno
    exact ⟨⟨some (removeError account network), ds⟩, by simp only [Remove, hb]⟩
  · have hpost : ∀ r ∈ post, ¬ (r.Network = network ∧ r.Account = account) := by
      intro r hr hp
      have hpair := (List.pairwise_cons.mp (List.pairwise_append.mp h).2.1).1 r hr
      exact hpair ⟨hx.2.trans hp.2.symm, hx.1.trans hp.1.symm⟩
    exact ⟨_, Remove_single false mid post x account network hx hmid hpost (Or.inl rfl)⟩

theorem AddContract_UniqueNames {V : Type} (d : Deployment V) (c : ContractDeployment V)
    (h : UniqueNames d.Contracts) : UniqueNames (AddContract d c).Contracts := by
  by_cases hex : ∃ e ∈ d.Contracts, e.Name = c.Name
  · rw [show AddContract d c = d from AddContract_loop_present d c d.Contracts hex]
    exact h
  · have habs : ∀ e ∈ d.Contracts, ¬ e.Name = c.Name := fun e he hn => hex ⟨e, he, hn⟩
    rw [show AddContract d c = { d with Contracts := d.Contracts ++ [c] } from
      AddContract_loop_absent d c d.Contracts habs]
    unfold UniqueNames at h ⊢
    rw [List.pairwise_append]
    refine ⟨h, List.pairwise_singleton _ _, ?_⟩
    intro a ha b hb
    rw [List.mem_singleton] at hb
    subst hb
    exact habs a ha

/-- A call of `RemoveContract` that returns leaves a sublist of the contracts and
the same network and account. -/
theorem RemoveContract_sublist {V : Type} (clearTail : Bool) (d d' : Deployment V)
    (contractName : String) (h : RemoveContract clearTail d contractName = some d') :
    List.Sublist d'.Contracts d.Contracts ∧ d'.Network = d.Network ∧ d'.Account = d.Account := by
  simp only [RemoveContract, Option.map_eq_some'] at h
  obtain ⟨s, hs, rfl⟩ := h
  have := rangeDelete_sublist clearTail (ContractDeployment.zero V) _ d.Contracts.length 0
    (Slice.ofList d.Contracts) s (le_refl _) hs
  rw [toList_ofList] at this
  exact ⟨this, rfl, rfl⟩

/-- `RemoveContract` on a deployment in which exactly one entry, `x`, has the name
asked for. With a `slices.Delete` that clears the vacated cell the name must not
be empty, unless `x` is the last entry. -/
theorem RemoveContract_single {V : Type} (clearTail : Bool) (d : Deployment V)
    (mid post : List (ContractDeployment V)) (x : ContractDeployment V) (contractName : String)
    (hd : d.Contracts = mid ++ x :: post) (hx : x.Name = contractName)
    (hmid : ∀ e ∈ mid, ¬ e.Name = contractName) (hpost : ∀ e ∈ post, ¬ e.Name = contractName)
    (hzero : clearTail = false ∨ ¬ "" = contractName ∨ post = []) :
    RemoveContract clearTail d contractName = some ⟨d.Network, d.Account, mid ++ post⟩ := by
  have hloop := rangeDelete_unique clearTail (ContractDeployment.zero V)
    (fun contract : ContractDeployment V => contract.Name = contractName)
    mid post x hx hmid hpost hzero
  simp only [RemoveContract, hd, hloop, Option.map_some', Slice.toList]
  rw [← List.length_append, List.take_left]

/-- On a deployment with one entry per name `RemoveContract` returns. -/
theorem RemoveContract_returns {V : Type} (d : Deployment V) (contractName : String)
    (h : UniqueNames d.Contracts) : ∃ d', RemoveContract false d contractName = some d' := by
  rcases first_split (fun e : ContractDeployment V => e.Name = contractName) d.Contracts
    with hno | ⟨mid, x, post, hd, hx, hmid⟩
  · have hloop := rangeDelete_absent false (ContractDeployment.zero V)
      (fun contract : ContractDeployment V => contract.Name = contractName) d.Contracts hno
    exact ⟨{ d with Contracts := (Slice.ofList d.Contracts).toList },
      by simp only [RemoveContract, hloop, Option.map_some']⟩
  · have hpost : ∀ e ∈ post, ¬ e.Name = contractName := by
      intro e he hp
      unfold UniqueNames at h
      rw [hd] at h
      have hpair := (List.pairwise_cons.mp (List.pairwise_append.mp h).2.1).1 e he
      exact hpair (hx.trans hp.symm)
    exact ⟨_, RemoveContract_single false d mid post x contractName hd hx hmid hpost (Or.inl rfl)⟩

/-! ## Claims on invariants, single removal and totality -/

/-- C12: having at most one record per (account, network) pair is an invariant:
it holds of the empty collection; `AddOrUpdate` keeps it; `Remove`, called on
a collection that has it, returns (with or without an error) and keeps it;
hence every sequence of the two calls from the empty collection runs through
and ends in a collection that has it. With the later `slices.Delete` too, any
collection that a call or a sequence of calls returns has it. -/
theorem UniquePairs_invariant {V : Type} :
    UniquePairs ([] : Deployments V) ∧
      (∀ (ds : Deployments V) (dep : Deployment V),
        UniquePairs ds → UniquePairs (AddOrUpdate ds dep)) ∧
      (∀ (ds : Deployments V) (account network : String), UniquePairs ds →
        ∃ r, Remove false ds account network = some r ∧ UniquePairs r.d) ∧
      (∀ (clearTail : Bool) (ds : Deployments V) (account network : String)
          (r : RemoveResult V),
        UniquePairs ds → Remove clearTail ds account network = some r → UniquePairs r.d) ∧
      (∀ calls : List (DeploymentsCall V),
        ∃ ds, runDeploymentsCalls false [] calls = some ds ∧ UniquePairs ds) ∧
      ∀ (clearTail : Bool) (calls : List (DeploymentsCall V)) (ds : Deployments V),
        runDeploymentsCalls clearTail [] calls = some ds → UniquePairs ds := by
  have hnil : UniquePairs ([] : Deployments V) := List.Pairwise.nil
  have hrem : ∀ (clearTail : Bool) (ds : Deployments V) (account network : String)
      (r : RemoveResult V),
      UniquePairs ds → Remove clearTail ds account network = some r → UniquePairs r.d :=
    fun clearTail ds account network r hu hr =>
      List.Pairwise.sublist (Remove_sublist clearTail ds account network r hr) hu
  have hrun : ∀ (calls : List (DeploymentsCall V)) (d : Deployments V), UniquePairs d →
      ∃ ds, runDeploymentsCalls false d calls = some ds ∧ UniquePairs ds := by
    intro calls
    induction calls with
    | nil => exact fun d hd => ⟨d, rfl, hd⟩
    | cons call calls ih =>
      intro d hd
      cases call with
      | addOrUpdate dep =>
        obtain ⟨ds, h1, h2⟩ := ih (AddOrUpdate d dep) (AddOrUpdate_UniquePairs d dep hd)
        exact ⟨ds, by simpa [runDeploymentsCalls, DeploymentsCall.run] using h1, h2⟩
      | remove account network =>
        obtain ⟨r, hr⟩ := Remove_returns d account network hd
        obtain ⟨ds, h1, h2⟩ := ih r.d (hrem false d account network r hd hr)
        exact ⟨ds, by simpa [runDeploymentsCalls, DeploymentsCall.run, hr] using h1, h2⟩
  have hany : ∀ (clearTail : Bool) (calls : List (DeploymentsCall V)) (d ds : Deployments V),
      UniquePairs d → runDeploymentsCalls clearTail d calls = some ds → UniquePairs ds := by
    intro clearTail calls
    induction calls with
    | nil =>
      intro d ds hd h
      simp only [runDeploymentsCalls, Option.some.injEq] at h
      rwa [← h]
    | cons call calls ih =>
      intro d ds hd h
      cases call with
      | addOrUpdate dep =>
        simp only [runDeploymentsCalls, DeploymentsCall.run, Option.some_bind] at h
        exact ih (AddOrUpdate d dep) ds (AddOrUpdate_UniquePairs d dep hd) h
      | remove account network =>
        cases hr : Remove clearTail d account network with
        | none => simp [runDeploymentsCalls, DeploymentsCall.run, hr] at h
        | some r =>
          simp only [runDeploymentsCalls, DeploymentsCall.run, hr, Option.map_some',
            Option.some_bind] at h
          exact ih r.d ds (hrem clearTail d account network r hd hr) h
  refine ⟨hnil, AddOrUpdate_UniquePairs, ?_, hrem, fun calls => hrun calls [] hnil,
    fun clearTail calls ds h => hany clearTail calls [] ds hnil h⟩
  intro ds account network hu
  obtain ⟨r, hr⟩ := Remove_returns ds account network hu
  exact ⟨r, hr, hrem false ds account network r hu hr⟩

/-- C13: having at most one entry per contract name is an invariant of a
deployment: `AddContract` keeps it; `RemoveContract`, called on a deployment
that has it, returns and keeps it; hence every sequence of the two calls from
a deployment with no contracts runs through and ends in a deployment that has
it. With the later `slices.Delete` too, any deployment that a call or a sequence
of calls returns has it. -/
theorem UniqueNames_invariant {V : Type} :
    (∀ (d : Deployment V) (c : ContractDeployment V),
        UniqueNames d.Contracts → UniqueNames (AddContract d c).Contracts) ∧
      (∀ (d : Deployment V) (contractName : String), UniqueNames d.Contracts →
        ∃ d', RemoveContract false d contractName = some d' ∧ UniqueNames d'.Contracts) ∧
      (∀ (clearTail : Bool) (d d' : Deployment V) (contractName : String),
        UniqueNames d.Contracts → RemoveContract clearTail d contractName = some d' →
          UniqueNames d'.Contracts) ∧
      (∀ (d : Deployment V) (calls : List (ContractCall V)), d.Contracts = [] →
        ∃ d', runContractCalls false d calls = some d' ∧ UniqueNames d'.Contracts) ∧
      ∀ (clearTail : Bool) (d d' : Deployment V) (calls : List (ContractCall V)),
        d.Contracts = [] → runContractCalls clearTail d calls = some d' →
          UniqueNames d'.Contracts := by
  have hrem : ∀ (clearTail : Bool) (d d' : Deployment V) (contractName : String),
      UniqueNames d.Contracts → RemoveContract clearTail d contractName = some d' →
        UniqueNames d'.Contracts :=
    fun clearTail d d' contractName hu hr =>
      List.Pairwise.sublist (RemoveContract_sublist clearTail d d' contractName hr).1 hu
  have hrun : ∀ (calls : List (ContractCall V)) (d : Deployment V), UniqueNames d.Contracts →
      ∃ d', runContractCalls false d calls = some d' ∧ UniqueNames d'.Contracts := by
    intro calls
    induction calls with
    | nil => exact fun d hd => ⟨d, rfl, hd⟩
    | cons call calls ih =>
      intro d hd
      cases call with
      | addContract c =>
        obtain ⟨d', h1, h2⟩ := ih (AddContract d c) (AddContract_UniqueNames d c hd)
        exact ⟨d', by simpa [runContractCalls, ContractCall.run] using h1, h2⟩
      | removeContract contractName =>
        obtain ⟨d1, hr⟩ := RemoveContract_returns d contractName hd
        obtain ⟨d', h1, h2⟩ := ih d1 (hrem false d d1 contractName hd hr)
        exact ⟨d', by simpa [runContractCalls, ContractCall.run, hr] using h1, h2⟩
  have hany : ∀ (clearTail : Bool) (calls : List (ContractCall V)) (d d' : Deployment V),
      UniqueNames d.Contracts → runContractCalls clearTail d calls = some d' →
        UniqueNames d'.Contracts := by
    intro clearTail calls
    induction calls with
    | nil =>
      intro d d' hd h
      simp only [runContractCalls, Option.some.injEq] at h
      rwa [← h]
    | cons call calls ih =>
      intro d d' hd h
      cases call with
      | addContract c =>
        simp only [runContractCalls, ContractCall.run, Option.some_bind] at h
        exact ih (AddContract d c) d' (AddContract_UniqueNames d c hd) h
      | removeContract contractName =>
        cases hr : RemoveContract clearTail d contractName with
        | none => simp [runContractCalls, ContractCall.run, hr] at h
        | some d1 =>
          simp only [runContractCalls, ContractCall.run, hr, Option.some_bind] at h
          exact ih d1 d' (hrem clearTail d d1 contractName hd hr) h
  have hempty : ∀ d : Deployment V, d.Contracts = [] → UniqueNames d.Contracts := by
    intro d hd
    rw [hd]
    exact List.Pairwise.nil
  refine ⟨AddContract_UniqueNames, ?_, hrem, fun d calls hd => hrun calls d (hempty d hd),
    fun clearTail d d' calls hd h => hany clearTail calls d d' (hempty d hd) h⟩
  intro d contractName hu
  obtain ⟨d', hr⟩ := RemoveContract_returns d contractName hu
  exact ⟨d', hr, hrem false d d' contractName hu hr⟩

/-- C18: on a deployment with pairwise distinct contract names that has an entry
`x` named `contractName`, `RemoveContract` leaves the contracts without `x`: one
entry shorter, the others unchanged and in order, network and account unchanged.
(`slices.Delete` as published when the file was written; `RemoveContract_single`
covers the later one.) -/
theorem RemoveContract_unique {V : Type} (d : Deployment V) (contractName : String)
    (huniq : d.Contracts.Pairwise (fun a b => ¬ a.Name = b.Name))
    (hex : ∃ e ∈ d.Contracts, e.Name = contractName) :
    ∃ mid x post, d.Contracts = mid ++ x :: post ∧ x.Name = contractName ∧
      RemoveContract false d contractName = some ⟨d.Network, d.Account, mid ++ post⟩ ∧
      (mid ++ post).length + 1 = d.Contracts.length ∧
      ∀ e ∈ mid ++ post, ¬ e.Name = contractName := by
  obtain ⟨mid, x, post, hd, hx, hmid⟩ :=
    first_split_of_exists (fun e : ContractDeployment V => e.Name = contractName)
      d.Contracts hex
  have hpost : ∀ e ∈ post, ¬ e.Name = contractName := by
    intro e he hp
    rw [hd] at huniq
    have hpair := (List.pairwise_cons.mp (List.pairwise_append.mp huniq).2.1).1 e he
    exact hpair (hx.trans hp.symm)
  refine ⟨mid, x, post, hd, hx, ?_, ?_, ?_⟩
  · exact RemoveContract_single false d mid post x contractName hd hx hmid hpost (Or.inl rfl)
  · rw [hd]
    simp only [List.length_append, List.length_cons]
    omega
  · intro e he
    rcases List.mem_append.mp he with h | h
    · exact hmid e h
    · exact hpost e h

/-- C15: `RemoveContract` and `Remove` at inputs on which they panic. With two
entries of empty name around another entry, `RemoveContract` of the empty name
slices past the length in its third iteration, under either `slices.Delete`;
so does `Remove` with two records of empty account and network around another.
With the `slices.Delete` of the time the same happens for the contracts Token,
NFT, Token and for the records of alice, bob, alice, where the name or pair asked
for is not empty. -/
theorem RemoveContract_Remove_panic :
    RemoveContract false emptyNameContracts "" = none ∧
      RemoveContract true emptyNameContracts "" = none ∧
      RemoveContract false separatedContracts "Token" = none ∧
      Remove false emptyPairDeployments "" "" = none ∧
      Remove true emptyPairDeployments "" "" = none ∧
      Remove false separatedDeployments "alice" "testnet" = none := by
  refine ⟨?_, ?_, ?_, ?_, ?_, ?_⟩ <;> decide

/-! ## The hypotheses of the later claims hold at concrete inputs -/

theorem RemoveContract_absent_witness :
    (∀ e ∈ sampleContracts.Contracts, ¬ e.Name = "Missing") ∧
      RemoveContract false sampleContracts "Missing" = some sampleContracts ∧
      ∀ d', RemoveContract false sampleContracts "Missing" = some d' →
        d'.Contracts = sampleContracts.Contracts ∧
          d'.Contracts.length = sampleContracts.Contracts.length :=
  ⟨by decide, RemoveContract_absent false sampleContracts "Missing" (by decide)⟩

theorem Remove_error_message_witness :
    Remove false sampleDeployments "carol" "testnet" =
        some ⟨some "deployment for account carol on network testnet does not exist in configuration",
          sampleDeployments⟩ ∧
      "deployment for account carol on network testnet does not exist in configuration" =
          "deployment for account " ++ "carol" ++ " on network " ++ "testnet" ++
            " does not exist in configuration" ∧
      (∃ pre post,
        "deployment for account carol on network testnet does not exist in configuration" =
          pre ++ "carol" ++ post) ∧
      ∃ pre post,
        "deployment for account carol on network testnet does not exist in configuration" =
          pre ++ "testnet" ++ post :=
  ⟨by decide,
    Remove_error_message false sampleDeployments "carol" "testnet" _ sampleDeployments
      (by decide)⟩

theorem RemoveContract_unique_witness :
    sampleContracts.Contracts.Pairwise (fun a b => ¬ a.Name = b.Name) ∧
      (∃ e ∈ sampleContracts.Contracts, e.Name = "NFT") ∧
      ∃ mid x post, sampleContracts.Contracts = mid ++ x :: post ∧ x.Name = "NFT" ∧
        RemoveContract false sampleContracts "NFT" =
          some ⟨sampleContracts.Network, sampleContracts.Account, mid ++ post⟩ ∧
        (mid ++ post).length + 1 = sampleContracts.Contracts.length ∧
        ∀ e ∈ mid ++ post, ¬ e.Name = "NFT" :=
  ⟨by decide, by decide, RemoveContract_unique sampleContracts "NFT" (by decide) (by decide)⟩

theorem Remove_AddOrUpdate_witness :
    (∀ r ∈ sampleDeployments,
        ¬ (r.Account = sampleNew.Account ∧ r.Network = sampleNew.Network)) ∧
      Remove false (AddOrUpdate sampleDeployments sampleNew) sampleNew.Account sampleNew.Network =
        some ⟨none, sampleDeployments⟩ :=
  ⟨by decide, Remove_AddOrUpdate false sampleDeployments sampleNew (by decide)⟩

end Config
